import Mathlib

/-!
Shallow embedding of the addon-operator module lifecycle engine.

Sources embedded here:
- `pkg/module_manager/module.go` (the unnamed source file — `Module.Run`,
  `runHelmInstall`, `ShouldRunHelmUpgrade`, `cleanup`, `checkIsEnabledByScript`,
  `readModuleEnabledResult`);
- `pkg/helm_resources_manager/resources_monitor.go` (`AbsentResources`, the
  `Start` tick loop);
- `pkg/utils/values.go` (`CompactPatches`, `ValidateHookValuesPatch`);
- `pkg/addon-operator/operator.go` (`QueueHasModuleRunTask`, the
  ModulesChanged / absent-resources enqueue paths, `RunDiscoverModulesState`,
  the `ModuleHookRun` branch of `TaskHandler`).

External collaborators (the Helm client, the Kubernetes dynamic client, the
hook executor, the shell-operator task queue) are modelled as explicit
environments: every fallible call is an `Except String` value supplied by the
environment.  Logging and the timing wrappers (`MeasureTimeToLog`) are
semantically transparent in the Go code and are dropped.

Go strings are modelled as Lean `String`; the handful of Go string functions
the code uses (`strings.Split`, `strings.HasPrefix`, `strings.HasSuffix`,
`strings.TrimSpace`, `sort.Strings`) are implemented structurally over the
character list `String.data`, so that all definitions evaluate by kernel
reduction.
-/

namespace AddonOperator

/-- Splits a character list at every occurrence of `sep`, like Go
`strings.Split`: the result always has one more element than the number of
separators, and splitting the empty string yields `[[]]`. -/
def splitOnChar (sep : Char) : List Char → List (List Char)
  | [] => [[]]
  | c :: rest =>
    let r := splitOnChar sep rest
    if c = sep then [] :: r
    else
      match r with
      | [] => [[c]]
      | h :: t => (c :: h) :: t

/-- Go `strings.Split(s, sep)` for a one-character separator. -/
def strSplitOn (s : String) (sep : Char) : List String :=
  (splitOnChar sep s.data).map (fun l => ⟨l⟩)

/-- Go `strings.HasSuffix s suf`. -/
def strHasSuffix (s suf : String) : Bool :=
  List.isSuffixOf suf.data s.data

/-- Go `strings.TrimSpace` (whitespace here is ASCII whitespace, which covers
every input the embedded claims touch). -/
def strTrim (s : String) : String :=
  ⟨((s.data.dropWhile Char.isWhitespace).reverse.dropWhile Char.isWhitespace).reverse⟩

/-- Lexicographic order on strings, as used by Go `sort.Strings`. -/
def strLe (a b : String) : Prop := a.data ≤ b.data

instance : DecidableRel strLe := fun a b => inferInstanceAs (Decidable (a.data ≤ b.data))

instance : IsTotal String strLe := ⟨fun a b => le_total a.data b.data⟩

instance : IsTrans String strLe := ⟨fun _ _ _ h1 h2 => le_trans h1 h2⟩

instance : IsRefl String strLe := ⟨fun a => le_refl a.data⟩

/-- A Go `interface\x7b\x7d` value as far as the embedded code observes it: the
code only ever asks whether the value is a string (and which one). -/
inductive GoVal
  | str (s : String)
  | other
deriving DecidableEq, Repr

/-- A manifest from the rendered chart, as used by the resources monitor
(shell-operator `pkg/utils/manifest`): api version, kind, metadata name and
optional metadata namespace.  `ns` is the manifest namespace (`namespace` is a
Lean keyword). -/
structure Manifest where
  apiVersion : String
  kind : String
  name : String
  ns : Option String
deriving DecidableEq, Repr

/-- Manifest.Namespace(default): the manifest namespace, or the given default
when the manifest omits one. -/
def Manifest.resolveNamespace (m : Manifest) (defaultNs : String) : String :=
  m.ns.getD defaultNs

/-- `ValuesPatchOperation` from `pkg/utils/values.go`: a JSON-patch operation
`\x7bop, path, value?\x7d`. -/
structure ValuesPatchOperation where
  op : String
  path : String
  value : Option GoVal
deriving DecidableEq, Repr

/-- `GlobalValuesKey` from `pkg/utils/values.go`. -/
def GlobalValuesKey : String := "global"

/-- Whether an `Except` result is an error. -/
def exceptIsError {ε α : Type} : Except ε α → Bool
  | .error _ => true
  | .ok _ => false

/-! ## ValidateHookValuesPatch (`pkg/utils/values.go`) -/

/-- `ValidateHookValuesPatch` from `pkg/utils/values.go`: walks the operations
in order; rejects any `replace` operation; for an operation whose path splits
on `/` into more than one part, the part at index 1 (the first JSON-pointer
segment) must be the acceptable key, or — when the acceptable key is the
global section — a key with suffix `Enabled`; otherwise the patch is
rejected.  Operations whose path has no `/` are accepted. -/
def ValidateHookValuesPatch (ops : List ValuesPatchOperation) (acceptableKey : String) :
    Except String Unit :=
  match ops with
  | [] => .ok ()
  | op :: rest =>
    if op.op = "replace" then .error "unsupported patch operation"
    else
      match strSplitOn op.path '/' with
      | _ :: affectedKey :: _ =>
        if strHasSuffix affectedKey "Enabled" && (acceptableKey == GlobalValuesKey) then
          ValidateHookValuesPatch rest acceptableKey
        else if affectedKey == acceptableKey then
          ValidateHookValuesPatch rest acceptableKey
        else .error "unacceptable patch operation for path"
      | _ => ValidateHookValuesPatch rest acceptableKey

/-- The declarative violation predicate for a single operation, used to state
the specification of `ValidateHookValuesPatch`. -/
def patchOpViolates (op : ValuesPatchOperation) (acceptableKey : String) : Bool :=
  op.op == "replace" ||
    (match strSplitOn op.path '/' with
     | _ :: affectedKey :: _ =>
       !(strHasSuffix affectedKey "Enabled" && (acceptableKey == GlobalValuesKey)) &&
         affectedKey != acceptableKey
     | _ => false)

/-! ## Enabled script (`checkIsEnabledByScript`, `readModuleEnabledResult`) -/

/-- The result of `os.Stat` on the enabled script path. -/
inductive StatResult
  | notExist
  | statError (e : String)
  | file (executable : Bool)
deriving DecidableEq, Repr

/-- Environment for `checkIsEnabledByScript`: results of the file system and
executor calls the function makes, and the content the script left in the
`MODULE_ENABLED_RESULT` file. -/
structure EnabledScriptEnv where
  stat : StatResult
  prepareConfigValuesJsonFile : Except String Unit
  prepareValuesJsonFileForEnabledScript : Except String Unit
  prepareModuleEnabledResultFile : Except String Unit
  runAndLogLines : Except String Unit
  enabledResultFileContent : String

/-- `readModuleEnabledResult` from `module.go`: trims the file content with
`strings.TrimSpace` and requires the result to be `true` or `false`. -/
def readModuleEnabledResult (content : String) : Except String Bool :=
  let value := strTrim content
  if value = "true" then .ok true
  else if value = "false" then .ok false
  else .error ("expected true or false, got " ++ value)

/-- `checkIsEnabledByScript` from `module.go`: a missing script means enabled;
a non-executable script is an error; otherwise the three temp files are
prepared, the script runs, and the `MODULE_ENABLED_RESULT` content is read
back (a bad result is reported as the error `bad enabled result`). -/
def checkIsEnabledByScript (env : EnabledScriptEnv) : Except String Bool :=
  match env.stat with
  | .notExist => .ok true
  | .statError e => .error e
  | .file executable =>
    if executable = false then .error "non-executable enable script"
    else
      match env.prepareConfigValuesJsonFile with
      | .error e => .error e
      | .ok _ =>
        match env.prepareValuesJsonFileForEnabledScript with
        | .error e => .error e
        | .ok _ =>
          match env.prepareModuleEnabledResultFile with
          | .error e => .error e
          | .ok _ =>
            match env.runAndLogLines with
            | .error e => .error e
            | .ok _ =>
              match readModuleEnabledResult env.enabledResultFileContent with
              | .error _ => .error "bad enabled result"
              | .ok moduleEnabled => .ok moduleEnabled

/-! ## ShouldRunHelmUpgrade (`module.go`) -/

/-- The Helm client operations `ShouldRunHelmUpgrade` uses, indexed by release
name.  `GetReleaseValues` is the stored release values map (an association
list, since the code only looks keys up). -/
structure HelmClient where
  IsReleaseExists : String → Except String Bool
  LastReleaseStatus : String → Except String String
  GetReleaseValues : String → Except String (List (String × GoVal))

/-- `ShouldRunHelmUpgrade` from `module.go`.  `getAbsentResources` stands for
`m.moduleManager.HelmResourcesManager.GetAbsentResources` (the resources
manager itself is not part of this repository's sources, so it is an abstract
collaborator here). -/
def ShouldRunHelmUpgrade (client : HelmClient)
    (getAbsentResources : List Manifest → Except String (List Manifest))
    (releaseName checksum : String) (manifests : List Manifest) : Except String Bool :=
  match client.IsReleaseExists releaseName with
  | .error e => .error e
  | .ok isReleaseExists =>
    if isReleaseExists = false then .ok true
    else
      match client.LastReleaseStatus releaseName with
      | .error e => .error e
      | .ok status =>
        if status = "FAILED" then .ok true
        else
          match client.GetReleaseValues releaseName with
          | .error e => .error e
          | .ok releaseValues =>
            match releaseValues.lookup "_addonOperatorModuleChecksum" with
            | none => .ok true
            | some recordedChecksum =>
              if (match recordedChecksum with
                  | GoVal.str s => s != checksum
                  | GoVal.other => false) then .ok true
              else
                match getAbsentResources manifests with
                | .error e => .error e
                | .ok absent =>
                  if absent.length > 0 then .ok true else .ok false

/-! ## Resources monitor (`resources_monitor.go`) -/

/-- The cluster as the Kubernetes dynamic client exposes it to the monitor:
whether the API resource behind (apiVersion, kind) is namespace-scoped, and
the set of objects, each identified by (apiVersion, kind, scope, name) where
the scope is `some namespace` for namespaced objects and `none` for
cluster-scoped ones. -/
structure Cluster where
  namespaced : String → String → Bool
  objs : List (String × String × Option String × String)

/-- The scope the monitor addresses for a manifest: the manifest namespace
(default namespace when omitted) for a namespaced resource, cluster scope
otherwise. -/
def resolveScope (c : Cluster) (m : Manifest) (defaultNs : String) : Option String :=
  if c.namespaced m.apiVersion m.kind then some (m.resolveNamespace defaultNs) else none

/-- The dynamic List call filtered by the field selector
`metadata.name=<manifest name>` in the resolved scope. -/
def listByName (c : Cluster) (m : Manifest) (defaultNs : String) :
    List (String × String × Option String × String) :=
  c.objs.filter (fun o =>
    o.1 == m.apiVersion && o.2.1 == m.kind && o.2.2.1 == resolveScope c m defaultNs &&
      o.2.2.2 == m.name)

/-- The dynamic Get call by name, with the standard Kubernetes client
semantics: it returns a NotFound error exactly when no object of that
resource with that name exists in the resolved scope — that is, exactly when
the name-filtered list is empty. -/
def dynamicGet (c : Cluster) (m : Manifest) (defaultNs : String) : Except String Unit :=
  if (listByName c m defaultNs).isEmpty then .error "not found" else .ok ()

/-- `AbsentResources` from `resources_monitor.go`, per its source text: for
each manifest the code issues the name-filtered List (whose error lands in
`err`), then issues a name Get reusing the same `err` variable — overwriting
the List error — and only then checks `err`; a manifest is appended to the
result when the List response is empty.  (The API-resource discovery call is
modelled as always succeeding; the timing wrappers are dropped.) -/
def AbsentResources (c : Cluster) (defaultNs : String) :
    List Manifest → Except String (List Manifest)
  | [] => .ok []
  | m :: rest =>
    let objList := listByName c m defaultNs
    match dynamicGet c m defaultNs with
    | .error e => .error ("Fetch list for helm resource: " ++ e)
    | .ok _ =>
      match AbsentResources c defaultNs rest with
      | .error e => .error e
      | .ok res => .ok (if objList.isEmpty then m :: res else res)

/-- The event the monitor callback publishes: module name, absent manifests,
default namespace. -/
structure AbsentResourcesEvent where
  moduleName : String
  absent : List Manifest
  defaultNs : String
deriving DecidableEq, Repr

/-- One tick of the `Start` loop from `resources_monitor.go`: a paused monitor
does nothing; otherwise `AbsentResources` runs — on error the error is only
logged and `absent` stays nil — and the callback fires exactly when the
absent list is non-empty. -/
def monitorTick (paused : Bool) (c : Cluster) (defaultNs moduleName : String)
    (manifests : List Manifest) : Option AbsentResourcesEvent :=
  if paused then none
  else
    match AbsentResources c defaultNs manifests with
    | .error _ => none
    | .ok absent => if absent.length > 0 then some ⟨moduleName, absent, defaultNs⟩ else none

/-- A concrete manifest for evaluating the monitor on an input where the
resource is absent from the cluster. -/
def c2Manifest : Manifest := ⟨"v1", "ConfigMap", "cm-a", none⟩

/-- A cluster holding no objects at all, so `c2Manifest` is absent. -/
def c2Cluster : Cluster := ⟨fun _ _ => true, []⟩

/-! ## Main queue and ModuleRun enqueue paths (`operator.go`) -/

/-- Task types handled by `TaskHandler` in `operator.go`. -/
inductive TaskType
  | globalHookRun
  | globalHookEnableKubernetesBindings
  | moduleRun
  | moduleDelete
  | modulePurge
  | moduleHookRun
  | discoverModulesState
  | moduleManagerRetry
deriving DecidableEq, Repr

/-- A queued task, with the metadata fields the embedded enqueue paths read. -/
structure QueueTask where
  ttype : TaskType
  moduleName : String
  onStartupHooks : Bool
deriving DecidableEq, Repr

/-- `QueueHasModuleRunTask` from `operator.go`: whether the queue holds a
ModuleRun task for the module. -/
def QueueHasModuleRunTask (q : List QueueTask) (moduleName : String) : Bool :=
  q.any (fun t => t.ttype == TaskType.moduleRun && t.moduleName == moduleName)

/-- The guarded enqueue used by the ModulesChanged and absent-resources event
paths in `StartModuleManagerEventHandler`: append a ModuleRun for the module
unless one is already queued. -/
def addModuleRunTaskIfMissing (q : List QueueTask) (moduleName : String) : List QueueTask :=
  if QueueHasModuleRunTask q moduleName then q
  else q ++ [⟨TaskType.moduleRun, moduleName, false⟩]

/-- `ModulesState` as consumed by `RunDiscoverModulesState`. -/
structure ModulesState where
  EnabledModules : List String
  NewlyEnabledModules : List String
  ModulesToDisable : List String
  ReleasedUnknownModules : List String

/-- The task list `RunDiscoverModulesState` returns (as the AfterTasks of the
DiscoverModulesState task): a ModuleRun per enabled module — with no
`QueueHasModuleRunTask` check — then a ModuleDelete per module to disable, a
ModulePurge per released unknown module, and a GlobalHookRun per afterAll
global hook. -/
def RunDiscoverModulesStateTasks (onStartupHooks : Bool) (st : ModulesState)
    (afterAllHooks : List String) : List QueueTask :=
  st.EnabledModules.map
      (fun n => ⟨TaskType.moduleRun, n, onStartupHooks || st.NewlyEnabledModules.contains n⟩)
    ++ st.ModulesToDisable.map (fun n => ⟨TaskType.moduleDelete, n, false⟩)
    ++ st.ReleasedUnknownModules.map (fun n => ⟨TaskType.modulePurge, n, false⟩)
    ++ afterAllHooks.map (fun _ => ⟨TaskType.globalHookRun, "", false⟩)

/-- Modelled from the spec: the shell-operator queue consumer (not part of
this repository's sources) pops the executed head task and appends the
result's AfterTasks at the tail (spec section 4.5). -/
def popAndAppendAfterTasks (q afterTasks : List QueueTask) : List QueueTask :=
  q.drop 1 ++ afterTasks

/-- The number of ModuleRun tasks for a module in a queue. -/
def moduleRunTaskCount (q : List QueueTask) (moduleName : String) : Nat :=
  (q.filter (fun t => t.ttype == TaskType.moduleRun && t.moduleName == moduleName)).length

/-- The claimed main-queue invariant: at most one ModuleRun task per module. -/
def MainQueueModuleRunInvariant (q : List QueueTask) : Prop :=
  ∀ name, moduleRunTaskCount q name ≤ 1

/-- A main queue holding a DiscoverModulesState task at the head and an
already-enqueued ModuleRun for module `mod-a` behind it (as the ModulesChanged
event path produces while discovery is pending). -/
def c3Queue : List QueueTask :=
  [⟨TaskType.discoverModulesState, "", true⟩, ⟨TaskType.moduleRun, "mod-a", false⟩]

/-- A discovery outcome that reports `mod-a` enabled. -/
def c3State : ModulesState := ⟨["mod-a"], [], [], []⟩

/-- The main queue after the consumer executes the DiscoverModulesState task
of `c3Queue` and appends the tasks discovery produced. -/
def c3QueueAfter : List QueueTask :=
  popAndAppendAfterTasks c3Queue (RunDiscoverModulesStateTasks false c3State [])

/-! ## ModuleHookRun dispatch (`operator.go`, `TaskHandler`) -/

/-- Queue task result status. -/
inductive TaskStatus
  | success
  | fail
deriving DecidableEq, Repr

/-- The observable actions of the ModuleHookRun branch, in execution order. -/
inductive MonitorAction
  | pauseMonitor
  | runHook
  | resumeMonitor
deriving DecidableEq, Repr

/-- Outcome of the ModuleHookRun branch: task status, whether the module's
resource monitor is left paused, and the actions performed in order. -/
structure ModuleHookRunOutcome where
  status : TaskStatus
  monitorPaused : Bool
  actions : List MonitorAction
deriving DecidableEq, Repr

/-- The `task.ModuleHookRun` branch of `TaskHandler` in `operator.go`: pause
the module's monitor, run the hook; on success resume and succeed; on failure
with `allowFailure` resume and succeed; on failure without `allowFailure`
fail and leave the monitor paused. -/
def ModuleHookRunHandler (allowFailure : Bool) (hookResult : Except String Unit) :
    ModuleHookRunOutcome :=
  match hookResult with
  | .ok _ =>
    ⟨TaskStatus.success, false, [MonitorAction.pauseMonitor, MonitorAction.runHook,
      MonitorAction.resumeMonitor]⟩
  | .error _ =>
    if allowFailure then
      ⟨TaskStatus.success, false, [MonitorAction.pauseMonitor, MonitorAction.runHook,
        MonitorAction.resumeMonitor]⟩
    else ⟨TaskStatus.fail, true, [MonitorAction.pauseMonitor, MonitorAction.runHook]⟩

/-! ## Module.Run and runHelmInstall (`module.go`) -/

/-- Hook bindings a module run touches. -/
inductive Binding
  | onStartup
  | beforeHelm
  | afterHelm
  | afterDeleteHelm
deriving DecidableEq, Repr

/-- The externally observable steps of `Module.Run`, in execution order. -/
inductive RunStep
  | cleanupStep
  | stopMonitorStep
  | hookBatch (b : Binding)
  | afterStartupCbStep
  | helmInstallStep
deriving DecidableEq, Repr

/-- `runHooksByBinding` from `module.go`: run the module hooks of a binding in
order, stopping at the first error.  A hook is a fallible transformer of the
module-manager values state `V`. -/
def runHooksByBinding {V : Type} (hooks : List (V → Except String V)) (v : V) :
    Except String V :=
  match hooks with
  | [] => .ok v
  | h :: rest =>
    match h v with
    | .error e => .error e
    | .ok vNew => runHooksByBinding rest vNew

/-- `runHooksByBindingAndCheckValues` from `module.go`: sample the values
checksum, run the hooks, sample again, and report whether the checksum
changed. -/
def runHooksByBindingAndCheckValues {V : Type} (checksum : V → String)
    (hooks : List (V → Except String V)) (v : V) : Except String (V × Bool) :=
  let valuesChecksum := checksum v
  match runHooksByBinding hooks v with
  | .error e => .error e
  | .ok vNew => .ok (vNew, checksum vNew != valuesChecksum)

/-- The module state the embedded operations read and write: the
module-manager values state and the module's `LastReleaseManifests` field. -/
structure ModState (V : Type) where
  values : V
  LastReleaseManifests : List Manifest
deriving DecidableEq, Repr

/-- Environment of `Module.Run`: the Helm client and the other external
collaborators, the hooks registered per binding, and the values checksum
function (`m.Values().Checksum()`).  `chartExists` is the result of
`checkHelmChart` (which errors exactly when `Chart.yaml` is missing). -/
structure ModuleRunEnv (V : Type) where
  chartExists : Bool
  DeleteSingleFailedRevision : Except String Unit
  DeleteOldFailedRevisions : Except String Unit
  prepareValuesYamlFile : V → Except String Unit
  Render : V → Except String String
  CalculateStringsChecksum : String → String
  GetManifestListFromYamlDocuments : String → Except String (List Manifest)
  helmClient : HelmClient
  GetAbsentResources : List Manifest → Except String (List Manifest)
  UpgradeRelease : Except String Unit
  hooksFor : Binding → List (V → Except String V)
  afterStartupCb : Except String Unit
  ValuesChecksum : V → String

/-- `cleanup` from `module.go`: without a chart it does nothing; with a chart
it deletes a single failed revision, then the old failed revisions. -/
def cleanup {V : Type} (env : ModuleRunEnv V) : Except String Unit :=
  if env.chartExists = false then .ok ()
  else
    match env.DeleteSingleFailedRevision with
    | .error e => .error e
    | .ok _ => env.DeleteOldFailedRevisions

/-- `runHelmInstall` from `module.go`: without a chart it returns at once;
otherwise it writes the values file, renders the chart, computes the checksum
of the rendered manifests, parses them, records them in
`LastReleaseManifests`, asks `ShouldRunHelmUpgrade`, and either skips the
upgrade or runs `UpgradeRelease`.  (Starting the resources monitor is a side
effect on the monitor manager and is not part of this state.) -/
def runHelmInstall {V : Type} (env : ModuleRunEnv V) (releaseName : String)
    (st : ModState V) : Except String (ModState V) :=
  if env.chartExists = false then .ok st
  else
    match env.prepareValuesYamlFile st.values with
    | .error e => .error e
    | .ok _ =>
      match env.Render st.values with
      | .error e => .error e
      | .ok renderedManifests =>
        let checksum := env.CalculateStringsChecksum renderedManifests
        match env.GetManifestListFromYamlDocuments renderedManifests with
        | .error e => .error e
        | .ok manifests =>
          let st2 : ModState V := ⟨st.values, manifests⟩
          match ShouldRunHelmUpgrade env.helmClient env.GetAbsentResources releaseName
              checksum manifests with
          | .error e => .error e
          | .ok runUpgradeRelease =>
            if runUpgradeRelease = false then .ok st2
            else
              match env.UpgradeRelease with
              | .error e => .error e
              | .ok _ => .ok st2

/-- Outcome of `Module.Run`: the final module state, the state as it was when
the AfterHelm batch began (the point where the Go code samples the first
values checksum), the returned `valuesChanged`, and the executed steps in
order. -/
structure ModuleRunOutcome (V : Type) where
  state : ModState V
  stateBeforeAfterHelm : ModState V
  valuesChanged : Bool
  steps : List RunStep
deriving DecidableEq, Repr

/-- `Module.Run` from `module.go`, in source order: `cleanup`, then
`StopMonitor`, then — when `onStartup` — the OnStartup hooks followed by
`afterStartupCb`, then the BeforeHelm hooks, `runHelmInstall`, and finally
the AfterHelm hooks through `runHooksByBindingAndCheckValues`, whose change
flag is returned. -/
def ModuleRun {V : Type} (env : ModuleRunEnv V) (releaseName : String) (onStartup : Bool)
    (st0 : ModState V) : Except String (ModuleRunOutcome V) :=
  match cleanup env with
  | .error e => .error e
  | .ok _ =>
    let steps0 := [RunStep.cleanupStep, RunStep.stopMonitorStep]
    let startupPhase : Except String (V × List RunStep) :=
      if onStartup then
        match runHooksByBinding (env.hooksFor Binding.onStartup) st0.values with
        | .error e => .error e
        | .ok v =>
          match env.afterStartupCb with
          | .error e => .error e
          | .ok _ =>
            .ok (v, steps0 ++ [RunStep.hookBatch Binding.onStartup, RunStep.afterStartupCbStep])
      else .ok (st0.values, steps0)
    match startupPhase with
    | .error e => .error e
    | .ok (v1, steps1) =>
      match runHooksByBinding (env.hooksFor Binding.beforeHelm) v1 with
      | .error e => .error e
      | .ok v2 =>
        match runHelmInstall env releaseName ⟨v2, st0.LastReleaseManifests⟩ with
        | .error e => .error e
        | .ok st2 =>
          match runHooksByBindingAndCheckValues env.ValuesChecksum
              (env.hooksFor Binding.afterHelm) st2.values with
          | .error e => .error e
          | .ok (v3, valuesChanged) =>
            .ok ⟨⟨v3, st2.LastReleaseManifests⟩, st2, valuesChanged,
              steps1 ++ [RunStep.hookBatch Binding.beforeHelm, RunStep.helmInstallStep,
                RunStep.hookBatch Binding.afterHelm]⟩

/-! ## CompactPatches (`pkg/utils/values.go`) -/

/-- The subpath test `CompactPatches` uses on a `remove`:
`len(op.Path) < len(subPath) && strings.HasPrefix(subPath, op.Path+"/")`. -/
def strictSubpathOf (subPath p : String) : Bool :=
  decide (p.length < subPath.length) && List.isPrefixOf (p.data ++ ['/']) subPath.data

/-- The `patchesTree` map of `CompactPatches`: path to accumulated operations.
Modelled as an association list with unique keys; the Go map's random
iteration order is immaterial, because the only whole-map iterations are the
subpath deletion (order-independent) and the final key collection, which is
sorted. -/
abbrev PatchTree := List (String × List ValuesPatchOperation)

/-- Lookup in the patches tree. -/
def treeGet : PatchTree → String → Option (List ValuesPatchOperation)
  | [], _ => none
  | (k, v) :: t, p => if k = p then some v else treeGet t p

/-- Map store in the patches tree: replace the binding if present, else append. -/
def treeSet : PatchTree → String → List ValuesPatchOperation → PatchTree
  | [], k, v => [(k, v)]
  | (k1, v1) :: t, k, v => if k1 = k then (k, v) :: t else (k1, v1) :: treeSet t k v

/-- The subpath deletion a `remove` performs: drop every binding whose path
strictly extends `p`. -/
def treeDeleteSubpaths (t : PatchTree) (p : String) : PatchTree :=
  t.filter (fun e => !(strictSubpathOf e.1 p))

/-- The virtual `add` inserted before a `remove` with no previous `add`. -/
def guardPatch (p : String) : ValuesPatchOperation :=
  ⟨"add", p, some (GoVal.str "guard-patch-for-successful-remove")⟩

/-- The most recent previous `add` among a path's accumulated operations (the
Go loop keeps overwriting with each `add` it finds, so the last one wins). -/
def lastAddOp (l : List ValuesPatchOperation) : Option ValuesPatchOperation :=
  (l.filter (fun o => o.op == "add")).getLast?

/-- One iteration of the `CompactPatches` loop body for one operation. -/
def compactStep (t : PatchTree) (op : ValuesPatchOperation) : PatchTree :=
  let t1 := if op.op == "remove" then treeDeleteSubpaths t op.path else t
  let t2 := if (treeGet t1 op.path).isNone then treeSet t1 op.path [] else t1
  let t3 := if op.op == "add" then treeSet t2 op.path [op] else t2
  if op.op == "remove" then
    match lastAddOp ((treeGet t3 op.path).getD []) with
    | some prevOp => treeSet t3 op.path [prevOp, op]
    | none => treeSet t3 op.path [guardPatch op.path, op]
  else t3

/-- The key list of the patches tree. -/
def treeKeys (t : PatchTree) : List String := t.map Prod.fst

/-- `CompactPatches` from `pkg/utils/values.go`: fold the operations through
the tree, then emit the accumulated operations path by path with the paths
sorted as by Go `sort.Strings`. -/
def CompactPatches (operations : List ValuesPatchOperation) : List ValuesPatchOperation :=
  let patchesTree := operations.foldl compactStep []
  let paths := List.insertionSort strLe (treeKeys patchesTree)
  paths.flatMap (fun p => (treeGet patchesTree p).getD [])

/-! ## Concrete instances used by counterexamples and witnesses -/

/-- An enabled-script environment whose script wrote `true` followed by a
newline into the result file. -/
def c7Env : EnabledScriptEnv :=
  ⟨StatResult.file true, .ok (), .ok (), .ok (), .ok (), "true\n"⟩

/-- An enabled-script environment whose script wrote exactly `false`. -/
def c7WitnessEnv : EnabledScriptEnv :=
  ⟨StatResult.file true, .ok (), .ok (), .ok (), .ok (), "false"⟩

/-- A Helm client with an existing, deployed release whose stored checksum is
`abc`. -/
def c1Client : HelmClient :=
  ⟨fun _ => .ok true, fun _ => .ok "DEPLOYED",
    fun _ => .ok [("_addonOperatorModuleChecksum", GoVal.str "abc")]⟩

/-- A module-run environment without a chart and with no hooks, over the
trivial values state. -/
def c4Env : ModuleRunEnv Unit where
  chartExists := false
  DeleteSingleFailedRevision := .ok ()
  DeleteOldFailedRevisions := .ok ()
  prepareValuesYamlFile := fun _ => .ok ()
  Render := fun _ => .ok ""
  CalculateStringsChecksum := fun s => s
  GetManifestListFromYamlDocuments := fun _ => .ok []
  helmClient := ⟨fun _ => .ok false, fun _ => .ok "", fun _ => .ok []⟩
  GetAbsentResources := fun _ => .ok []
  UpgradeRelease := .ok ()
  hooksFor := fun _ => []
  afterStartupCb := .ok ()
  ValuesChecksum := fun _ => "c"

/-- The outcome `ModuleRun` produces on `c4Env` without `onStartup`. -/
def c4Outcome : ModuleRunOutcome Unit :=
  ⟨⟨(), []⟩, ⟨(), []⟩, false,
    [RunStep.cleanupStep, RunStep.stopMonitorStep, RunStep.hookBatch Binding.beforeHelm,
      RunStep.helmInstallStep, RunStep.hookBatch Binding.afterHelm]⟩

/-- The manifest the concrete chart of `c8Env` renders. -/
def c8Manifest : Manifest := ⟨"apps/v1", "Deployment", "dep-a", some "ns1"⟩

/-- A module-run environment with a chart whose rendering parses to
`[c8Manifest]` and whose release does not exist yet (so the upgrade runs). -/
def c8Env : ModuleRunEnv Unit where
  chartExists := true
  DeleteSingleFailedRevision := .ok ()
  DeleteOldFailedRevisions := .ok ()
  prepareValuesYamlFile := fun _ => .ok ()
  Render := fun _ => .ok "manifest-doc"
  CalculateStringsChecksum := fun s => s
  GetManifestListFromYamlDocuments := fun _ => .ok [c8Manifest]
  helmClient := ⟨fun _ => .ok false, fun _ => .ok "DEPLOYED", fun _ => .ok []⟩
  GetAbsentResources := fun _ => .ok []
  UpgradeRelease := .ok ()
  hooksFor := fun _ => []
  afterStartupCb := .ok ()
  ValuesChecksum := fun _ => "c"

/-- The outcome `ModuleRun` produces on `c8Env` without `onStartup`. -/
def c8Outcome : ModuleRunOutcome Unit :=
  ⟨⟨(), [c8Manifest]⟩, ⟨(), [c8Manifest]⟩, false,
    [RunStep.cleanupStep, RunStep.stopMonitorStep, RunStep.hookBatch Binding.beforeHelm,
      RunStep.helmInstallStep, RunStep.hookBatch Binding.afterHelm]⟩

/-- A patch sequence exercising the subpath-discarding branch of
`CompactPatches`: an add below `/a`, then a remove of `/a`, then an unrelated
add. -/
def c10Ops : List ValuesPatchOperation :=
  [⟨"add", "/a/b", some (GoVal.str "v1")⟩, ⟨"remove", "/a", none⟩,
    ⟨"add", "/x", some (GoVal.str "v2")⟩]

/-- Shape of one tree binding: empty, a single `add` at the key, or an `add`
followed by a `remove`, both at the key. -/
def entryOK (k : String) (l : List ValuesPatchOperation) : Prop :=
  l = [] ∨
    (∃ a, l = [a] ∧ a.op = "add" ∧ a.path = k) ∨
    (∃ a r, l = [a, r] ∧ a.op = "add" ∧ r.op = "remove" ∧ a.path = k ∧ r.path = k)

/-- Tree invariant maintained by the `CompactPatches` fold: keys are unique
and every binding has the `entryOK` shape. -/
def treeOK (t : PatchTree) : Prop :=
  (treeKeys t).Nodup ∧ ∀ e ∈ t, entryOK e.1 e.2

/-! ## Theorems -/

/-- C2: code_bug evidence.  For a manifest whose resource does not exist in
the cluster, the name-filtered list is empty — which, by the code's own
comment (`Object is considered absent if list is empty`) and the spec, should
classify the manifest as absent — yet `AbsentResources` returns the NotFound
error of the interleaved Get call instead of reporting the manifest, and the
monitor tick therefore emits no absent-resources event. -/
theorem absentResources_get_bug :
    listByName c2Cluster c2Manifest "default" = [] ∧
    AbsentResources c2Cluster "default" [c2Manifest] =
      .error "Fetch list for helm resource: not found" ∧
    monitorTick false c2Cluster "default" "mod-a" [c2Manifest] = none :=
  ⟨rfl, rfl, rfl⟩

/-- C6: `ValidateHookValuesPatch` returns an error exactly when some operation
is a `replace`, or has a first path segment that is neither the acceptable
section key nor (when the acceptable section is the global one) a key ending
in `Enabled`. -/
theorem validateHookValuesPatch_error_iff (ops : List ValuesPatchOperation)
    (acceptableKey : String) :
    exceptIsError (ValidateHookValuesPatch ops acceptableKey) =
      ops.any (fun op => patchOpViolates op acceptableKey) := by
  induction ops with
  | nil => rfl
  | cons op rest ih =>
    rw [ValidateHookValuesPatch, List.any_cons]
    by_cases h1 : op.op = "replace"
    · simp [patchOpViolates, h1, exceptIsError]
    · have h1b : (op.op == "replace") = false := beq_eq_false_iff_ne.mpr h1
      rw [if_neg h1, patchOpViolates, h1b, Bool.false_or]
      cases hsplit : strSplitOn op.path '/' with
      | nil => simpa using ih
      | cons a t =>
        cases t with
        | nil => simpa using ih
        | cons affectedKey t2 =>
          by_cases h2 :
              (strHasSuffix affectedKey "Enabled" && (acceptableKey == GlobalValuesKey)) = true
          · simp [h2, ih]
          · rw [Bool.not_eq_true] at h2
            by_cases h3 : affectedKey = acceptableKey
            · simp [h2, h3, ih]
            · simp [h2, h3, exceptIsError, bne_iff_ne]

/-- C7: counterexample to the claim as stated.  The script wrote
`true` followed by a newline — content not exactly `true` nor `false` — yet
`checkIsEnabledByScript` accepts it and reports the module enabled. -/
theorem checkIsEnabledByScript_accepts_untrimmed :
    checkIsEnabledByScript c7Env = .ok true ∧
    c7Env.enabledResultFileContent ≠ "true" ∧
    c7Env.enabledResultFileContent ≠ "false" := by
  refine ⟨rfl, by decide, by decide⟩

/-- C7 (amended): a missing enabled script means enabled; an existing but
non-executable script is an error; otherwise the script result file content
is trimmed of surrounding whitespace and must then be exactly `true` or
`false`, anything else being an error. -/
theorem checkIsEnabledByScript_cases (env : EnabledScriptEnv)
    (h1 : env.prepareConfigValuesJsonFile = .ok ())
    (h2 : env.prepareValuesJsonFileForEnabledScript = .ok ())
    (h3 : env.prepareModuleEnabledResultFile = .ok ())
    (h4 : env.runAndLogLines = .ok ()) :
    checkIsEnabledByScript { env with stat := StatResult.notExist } = .ok true ∧
    checkIsEnabledByScript { env with stat := StatResult.file false } =
      .error "non-executable enable script" ∧
    checkIsEnabledByScript { env with stat := StatResult.file true } =
      (if strTrim env.enabledResultFileContent = "true" then .ok true
       else if strTrim env.enabledResultFileContent = "false" then .ok false
       else .error "bad enabled result") := by
  refine ⟨rfl, rfl, ?_⟩
  show checkIsEnabledByScript _ = _
  rw [checkIsEnabledByScript]
  simp only [h1, h2, h3, h4]
  rw [readModuleEnabledResult]
  by_cases ht : strTrim env.enabledResultFileContent = "true"
  · simp [ht]
  · by_cases hf : strTrim env.enabledResultFileContent = "false"
    · simp [ht, hf]
    · simp [ht, hf]

/-- C7 witness: the amended theorem applied to a concrete environment whose
script wrote exactly `false`. -/
theorem checkIsEnabledByScript_cases_witness :
    checkIsEnabledByScript { c7WitnessEnv with stat := StatResult.notExist } = .ok true ∧
    checkIsEnabledByScript { c7WitnessEnv with stat := StatResult.file false } =
      .error "non-executable enable script" ∧
    checkIsEnabledByScript { c7WitnessEnv with stat := StatResult.file true } =
      (if strTrim c7WitnessEnv.enabledResultFileContent = "true" then .ok true
       else if strTrim c7WitnessEnv.enabledResultFileContent = "false" then .ok false
       else .error "bad enabled result") :=
  checkIsEnabledByScript_cases c7WitnessEnv rfl rfl rfl rfl

/-- C9: the ModuleHookRun branch pauses the monitor, runs the hook, and then
either resumes it (hook succeeded, or failed with `allowFailure`) with task
status Success, or — hook failed without `allowFailure` — leaves the monitor
paused with task status Fail. -/
theorem moduleHookRunHandler_pause_resume (allowFailure : Bool)
    (hookResult : Except String Unit) :
    ModuleHookRunHandler allowFailure hookResult =
      (if exceptIsError hookResult && !allowFailure then
        ⟨TaskStatus.fail, true, [MonitorAction.pauseMonitor, MonitorAction.runHook]⟩
       else
        ⟨TaskStatus.success, false, [MonitorAction.pauseMonitor, MonitorAction.runHook,
          MonitorAction.resumeMonitor]⟩) ∧
    ((ModuleHookRunHandler allowFailure hookResult).status = TaskStatus.fail ↔
      (exceptIsError hookResult = true ∧ allowFailure = false)) := by
  cases hookResult <;> cases allowFailure <;> simp [ModuleHookRunHandler, exceptIsError]

/-- C1: whenever all four collaborator calls succeed, `ShouldRunHelmUpgrade`
returns true exactly when the release does not exist, or its last status is
FAILED, or the stored values have no `_addonOperatorModuleChecksum` key, or
the stored checksum is a string different from the freshly computed one, or
some rendered manifest is reported absent; otherwise it returns false. -/
theorem shouldRunHelmUpgrade_iff (client : HelmClient)
    (getAbsentResources : List Manifest → Except String (List Manifest))
    (releaseName checksum : String) (manifests : List Manifest)
    (releaseFound : Bool) (status : String) (releaseValues : List (String × GoVal))
    (absent : List Manifest)
    (hex : client.IsReleaseExists releaseName = .ok releaseFound)
    (hst : client.LastReleaseStatus releaseName = .ok status)
    (hvals : client.GetReleaseValues releaseName = .ok releaseValues)
    (habs : getAbsentResources manifests = .ok absent) :
    ShouldRunHelmUpgrade client getAbsentResources releaseName checksum manifests =
      .ok (!releaseFound || (status == "FAILED") ||
        (releaseValues.lookup "_addonOperatorModuleChecksum").isNone ||
        (match releaseValues.lookup "_addonOperatorModuleChecksum" with
         | some (GoVal.str s) => s != checksum
         | _ => false) ||
        !absent.isEmpty) := by
  cases releaseFound with
  | false => simp [ShouldRunHelmUpgrade, hex]
  | true =>
    simp only [ShouldRunHelmUpgrade, hex]
    rw [if_neg (by simp), hst]
    simp only []
    by_cases hfail : status = "FAILED"
    · simp [hfail]
    · rw [if_neg hfail, hvals]
      simp only []
      have hfailb : (status == "FAILED") = false := beq_eq_false_iff_ne.mpr hfail
      cases hlook : releaseValues.lookup "_addonOperatorModuleChecksum" with
      | none => simp [hfailb]
      | some recordedChecksum =>
        cases recordedChecksum with
        | other =>
          cases absent with
          | nil => simp [habs, hfailb]
          | cons a rest => simp [habs, hfailb]
        | str s =>
          by_cases hs : s = checksum
          · subst hs
            cases absent with
            | nil => simp [habs, hfailb]
            | cons a rest => simp [habs, hfailb]
          · simp [hfailb, bne_iff_ne, hs]

/-- C1 witness: the theorem applied to a client whose release exists, is
deployed, and stores exactly the fresh checksum, with no absent resources, so
the upgrade is skipped. -/
theorem shouldRunHelmUpgrade_iff_witness :
    ShouldRunHelmUpgrade c1Client (fun _ => .ok []) "release-a" "abc" [] = .ok false := by
  rw [shouldRunHelmUpgrade_iff c1Client (fun _ => .ok []) "release-a" "abc" []
    true "DEPLOYED" [("_addonOperatorModuleChecksum", GoVal.str "abc")] [] rfl rfl rfl rfl]
  rfl

/-- C3: counterexample to the claim as stated.  The main queue `c3Queue`
satisfies the at-most-one-ModuleRun invariant (it holds one ModuleRun for
module `mod-a`, queued behind a pending DiscoverModulesState task), yet after
the consumer executes the DiscoverModulesState task — whose produced task
list contains a ModuleRun for every enabled module with no duplicate check —
the queue holds two ModuleRun tasks for `mod-a`. -/
theorem discoverTasks_duplicate_moduleRun :
    MainQueueModuleRunInvariant c3Queue ∧
    moduleRunTaskCount c3QueueAfter "mod-a" = 2 := by
  constructor
  · intro name
    by_cases h : ("mod-a" : String) = name
    · subst h; decide
    · have hb : (("mod-a" : String) == name) = false := beq_eq_false_iff_ne.mpr h
      simp [moduleRunTaskCount, c3Queue, hb,
        show (TaskType.discoverModulesState == TaskType.moduleRun) = false from rfl,
        show (TaskType.moduleRun == TaskType.moduleRun) = true from rfl]
  · rfl

/-- C3 (amended): the guarded enqueue used by the module-config-change and
absent-resources event paths preserves the at-most-one-ModuleRun invariant of
the main queue. -/
theorem addModuleRunTaskIfMissing_preserves_invariant (q : List QueueTask)
    (moduleName : String) (h : MainQueueModuleRunInvariant q) :
    MainQueueModuleRunInvariant (addModuleRunTaskIfMissing q moduleName) := by
  intro name
  rw [addModuleRunTaskIfMissing]
  by_cases hq : QueueHasModuleRunTask q moduleName
  · rw [if_pos hq]; exact h name
  · rw [if_neg hq]
    rw [moduleRunTaskCount, List.filter_append, List.length_append]
    by_cases hname : moduleName = name
    · subst hname
      have h0 : moduleRunTaskCount q moduleName = 0 := by
        rw [moduleRunTaskCount, List.length_eq_zero, List.filter_eq_nil_iff]
        intro t ht hpred
        exact hq (List.any_eq_true.mpr ⟨t, ht, hpred⟩)
      rw [moduleRunTaskCount] at h0
      rw [h0]
      simp [List.filter]
    · have hnb : (moduleName == name) = false := beq_eq_false_iff_ne.mpr hname
      have h1 := h name
      rw [moduleRunTaskCount] at h1
      simpa [List.filter, hnb] using h1

/-- C3 witness: the amended theorem applied to the empty main queue. -/
theorem addModuleRunTaskIfMissing_preserves_invariant_witness :
    MainQueueModuleRunInvariant (addModuleRunTaskIfMissing [] "mod-a") :=
  addModuleRunTaskIfMissing_preserves_invariant [] "mod-a"
    (fun name => by simp [moduleRunTaskCount])

/-- Helper: a successful `runHooksByBindingAndCheckValues` reports exactly
whether the checksum after the batch differs from the checksum before it. -/
lemma runHooksByBindingAndCheckValues_ok {V : Type} (checksum : V → String)
    (hooks : List (V → Except String V)) (v vNew : V) (changed : Bool)
    (h : runHooksByBindingAndCheckValues checksum hooks v = .ok (vNew, changed)) :
    changed = (checksum vNew != checksum v) ∧ runHooksByBinding hooks v = .ok vNew := by
  rw [runHooksByBindingAndCheckValues] at h
  cases hr : runHooksByBinding hooks v with
  | error e => rw [hr] at h; simp at h
  | ok w =>
    rw [hr] at h
    simp only [Except.ok.injEq, Prod.mk.injEq] at h
    obtain ⟨h1, h2⟩ := h
    subst h1
    exact ⟨h2.symm, rfl⟩

/-- Helper: a successful `runHelmInstall` with a chart leaves the values
unchanged and records in `LastReleaseManifests` the parse of the rendering of
the input values. -/
lemma runHelmInstall_ok {V : Type} (env : ModuleRunEnv V) (releaseName : String)
    (st stOut : ModState V) (hchart : env.chartExists = true)
    (h : runHelmInstall env releaseName st = .ok stOut) :
    ∃ rendered manifests,
      env.Render st.values = .ok rendered ∧
      env.GetManifestListFromYamlDocuments rendered = .ok manifests ∧
      stOut.values = st.values ∧ stOut.LastReleaseManifests = manifests := by
  rw [runHelmInstall, hchart] at h
  rw [if_neg (by simp)] at h
  cases hprep : env.prepareValuesYamlFile st.values with
  | error e => simp [hprep] at h
  | ok u1 =>
    simp only [hprep] at h
    cases hrender : env.Render st.values with
    | error e => simp [hrender] at h
    | ok rendered =>
      simp only [hrender] at h
      cases hparse : env.GetManifestListFromYamlDocuments rendered with
      | error e => simp [hparse] at h
      | ok manifests =>
        simp only [hparse] at h
        cases hupg : ShouldRunHelmUpgrade env.helmClient env.GetAbsentResources releaseName
            (env.CalculateStringsChecksum rendered) manifests with
        | error e => simp [hupg] at h
        | ok runUpgradeRelease =>
          simp only [hupg] at h
          refine ⟨rendered, manifests, rfl, hparse, ?_⟩
          cases runUpgradeRelease with
          | false =>
            rw [if_pos rfl] at h
            simp only [Except.ok.injEq] at h
            rw [← h]
            exact ⟨rfl, rfl⟩
          | true =>
            rw [if_neg (by simp)] at h
            cases hu : env.UpgradeRelease with
            | error e => simp [hu] at h
            | ok u2 =>
              simp only [hu, Except.ok.injEq] at h
              rw [← h]
              exact ⟨rfl, rfl⟩

/-- Helper: decomposition of a successful `ModuleRun`: the Helm install ran on
the values produced by the BeforeHelm batch, the AfterHelm check ran on the
resulting state, and the outcome fields and step list are as recorded. -/
lemma moduleRun_ok_destruct {V : Type} (env : ModuleRunEnv V) (releaseName : String)
    (onStartup : Bool) (st0 : ModState V) (out : ModuleRunOutcome V)
    (h : ModuleRun env releaseName onStartup st0 = .ok out) :
    ∃ v2 st2 v3 changed,
      runHelmInstall env releaseName ⟨v2, st0.LastReleaseManifests⟩ = .ok st2 ∧
      runHooksByBindingAndCheckValues env.ValuesChecksum (env.hooksFor Binding.afterHelm)
        st2.values = .ok (v3, changed) ∧
      out = ⟨⟨v3, st2.LastReleaseManifests⟩, st2, changed,
        [RunStep.cleanupStep, RunStep.stopMonitorStep] ++
          (if onStartup then [RunStep.hookBatch Binding.onStartup, RunStep.afterStartupCbStep]
           else []) ++
          [RunStep.hookBatch Binding.beforeHelm, RunStep.helmInstallStep,
            RunStep.hookBatch Binding.afterHelm]⟩ := by
  rw [ModuleRun] at h
  cases hclean : cleanup env with
  | error e => rw [hclean] at h; simp at h
  | ok u0 =>
    simp only [hclean] at h
    cases onStartup with
    | false =>
      simp only [Bool.false_eq_true, if_false] at h
      cases hbh : runHooksByBinding (env.hooksFor Binding.beforeHelm) st0.values with
      | error e => simp [hbh] at h
      | ok v2 =>
        simp only [hbh] at h
        cases hhi : runHelmInstall env releaseName ⟨v2, st0.LastReleaseManifests⟩ with
        | error e => simp [hhi] at h
        | ok st2 =>
          simp only [hhi] at h
          cases hah : runHooksByBindingAndCheckValues env.ValuesChecksum
              (env.hooksFor Binding.afterHelm) st2.values with
          | error e => simp [hah] at h
          | ok p =>
            obtain ⟨v3, changed⟩ := p
            simp only [hah, Except.ok.injEq] at h
            refine ⟨v2, st2, v3, changed, hhi, hah, ?_⟩
            rw [← h]
            simp
    | true =>
      simp only [if_true] at h
      cases hos : runHooksByBinding (env.hooksFor Binding.onStartup) st0.values with
      | error e => simp [hos] at h
      | ok v1 =>
        simp only [hos] at h
        cases hcb : env.afterStartupCb with
        | error e => simp [hcb] at h
        | ok u1 =>
          simp only [hcb] at h
          cases hbh : runHooksByBinding (env.hooksFor Binding.beforeHelm) v1 with
          | error e => simp [hbh] at h
          | ok v2 =>
            simp only [hbh] at h
            cases hhi : runHelmInstall env releaseName ⟨v2, st0.LastReleaseManifests⟩ with
            | error e => simp [hhi] at h
            | ok st2 =>
              simp only [hhi] at h
              cases hah : runHooksByBindingAndCheckValues env.ValuesChecksum
                  (env.hooksFor Binding.afterHelm) st2.values with
              | error e => simp [hah] at h
              | ok p =>
                obtain ⟨v3, changed⟩ := p
                simp only [hah, Except.ok.injEq] at h
                refine ⟨v2, st2, v3, changed, hhi, hah, ?_⟩
                rw [← h]
                simp

/-- C4: counterexample to the claimed order.  On a concrete successful run the
first executed step is the failed-revision cleanup, not the monitor stop the
claim puts first. -/
theorem moduleRun_cleanup_before_stopMonitor :
    (ModuleRun c4Env "release-a" false ⟨(), []⟩).map (fun out => out.steps.head?) =
      .ok (some RunStep.cleanupStep) ∧
    RunStep.cleanupStep ≠ RunStep.stopMonitorStep :=
  ⟨rfl, by decide⟩

/-- C4 (amended): a successful `Module.Run` executes its phases in the order
cleanup of stale failed Helm revisions, resource-monitor stop, then (when
`onStartup`) the OnStartup hooks followed by `afterStartupCb`, then the
BeforeHelm hooks, the Helm install/upgrade decision, and the AfterHelm hooks;
and it returns `valuesChanged` equal to whether the values checksum sampled
before the AfterHelm batch differs from the one sampled after it. -/
theorem moduleRun_order_and_valuesChanged {V : Type} (env : ModuleRunEnv V)
    (releaseName : String) (onStartup : Bool) (st0 : ModState V) (out : ModuleRunOutcome V)
    (h : ModuleRun env releaseName onStartup st0 = .ok out) :
    out.steps = [RunStep.cleanupStep, RunStep.stopMonitorStep] ++
      (if onStartup then [RunStep.hookBatch Binding.onStartup, RunStep.afterStartupCbStep]
       else []) ++
      [RunStep.hookBatch Binding.beforeHelm, RunStep.helmInstallStep,
        RunStep.hookBatch Binding.afterHelm] ∧
    out.valuesChanged =
      (env.ValuesChecksum out.state.values !=
        env.ValuesChecksum out.stateBeforeAfterHelm.values) := by
  obtain ⟨v2, st2, v3, changed, hhi, hah, hout⟩ :=
    moduleRun_ok_destruct env releaseName onStartup st0 out h
  obtain ⟨hchanged, hrun⟩ := runHooksByBindingAndCheckValues_ok env.ValuesChecksum
    (env.hooksFor Binding.afterHelm) st2.values v3 changed hah
  subst hout
  exact ⟨rfl, hchanged⟩

/-- C4 witness: the amended theorem applied to the concrete environment
`c4Env`, whose successful run has the recorded steps and an unchanged values
checksum. -/
theorem moduleRun_order_and_valuesChanged_witness :
    c4Outcome.steps = [RunStep.cleanupStep, RunStep.stopMonitorStep] ++
      (if false then [RunStep.hookBatch Binding.onStartup, RunStep.afterStartupCbStep]
       else []) ++
      [RunStep.hookBatch Binding.beforeHelm, RunStep.helmInstallStep,
        RunStep.hookBatch Binding.afterHelm] ∧
    c4Outcome.valuesChanged =
      (c4Env.ValuesChecksum c4Outcome.state.values !=
        c4Env.ValuesChecksum c4Outcome.stateBeforeAfterHelm.values) :=
  moduleRun_order_and_valuesChanged c4Env "release-a" false ⟨(), []⟩ c4Outcome rfl

/-- C8: after a successful `Module.Run` of a module with a chart, the module's
`LastReleaseManifests` equals the manifest list parsed from rendering the
chart with the values used for that run (the values as of the Helm phase) —
whether or not the upgrade itself was skipped. -/
theorem moduleRun_lastReleaseManifests {V : Type} (env : ModuleRunEnv V)
    (releaseName : String) (onStartup : Bool) (st0 : ModState V) (out : ModuleRunOutcome V)
    (h : ModuleRun env releaseName onStartup st0 = .ok out)
    (hchart : env.chartExists = true) :
    ∃ rendered manifests,
      env.Render out.stateBeforeAfterHelm.values = .ok rendered ∧
      env.GetManifestListFromYamlDocuments rendered = .ok manifests ∧
      out.state.LastReleaseManifests = manifests ∧
      out.stateBeforeAfterHelm.LastReleaseManifests = manifests := by
  obtain ⟨v2, st2, v3, changed, hhi, hah, hout⟩ :=
    moduleRun_ok_destruct env releaseName onStartup st0 out h
  obtain ⟨rendered, manifests, hrender, hparse, hvals, hman⟩ :=
    runHelmInstall_ok env releaseName ⟨v2, st0.LastReleaseManifests⟩ st2 hchart hhi
  subst hout
  refine ⟨rendered, manifests, ?_, hparse, ?_, hman⟩
  · show env.Render st2.values = .ok rendered
    rw [hvals]
    exact hrender
  · exact hman

/-- C8 witness: the theorem applied to the concrete charted environment
`c8Env`, whose run records the parsed manifest `c8Manifest`. -/
theorem moduleRun_lastReleaseManifests_witness :
    ∃ rendered manifests,
      c8Env.Render c8Outcome.stateBeforeAfterHelm.values = .ok rendered ∧
      c8Env.GetManifestListFromYamlDocuments rendered = .ok manifests ∧
      c8Outcome.state.LastReleaseManifests = manifests ∧
      c8Outcome.stateBeforeAfterHelm.LastReleaseManifests = manifests :=
  moduleRun_lastReleaseManifests c8Env "release-a" false ⟨(), []⟩ c8Outcome rfl rfl

/-! ### Patches-tree lemmas for `CompactPatches` -/

lemma treeGet_treeSet_self (t : PatchTree) (k : String) (v : List ValuesPatchOperation) :
    treeGet (treeSet t k v) k = some v := by
  induction t with
  | nil => simp [treeSet, treeGet]
  | cons e t ih =>
    obtain ⟨k1, v1⟩ := e
    rw [treeSet]
    by_cases h : k1 = k
    · rw [if_pos h, treeGet, if_pos rfl]
    · rw [if_neg h, treeGet, if_neg h]
      exact ih

lemma treeGet_treeSet_ne (t : PatchTree) (k : String) (v : List ValuesPatchOperation)
    (p : String) (h : k ≠ p) : treeGet (treeSet t k v) p = treeGet t p := by
  induction t with
  | nil => simp [treeSet, treeGet, h]
  | cons e t ih =>
    obtain ⟨k1, v1⟩ := e
    rw [treeSet]
    by_cases h1 : k1 = k
    · rw [if_pos h1, treeGet, if_neg h, treeGet, h1, if_neg h]
    · rw [if_neg h1, treeGet, treeGet]
      by_cases h2 : k1 = p
      · rw [if_pos h2, if_pos h2]
      · rw [if_neg h2, if_neg h2]
        exact ih

lemma mem_treeSet (t : PatchTree) (k : String) (v : List ValuesPatchOperation)
    (e : String × List ValuesPatchOperation) (he : e ∈ treeSet t k v) :
    e = (k, v) ∨ e ∈ t := by
  induction t with
  | nil => simpa [treeSet] using he
  | cons e1 t ih =>
    obtain ⟨k1, v1⟩ := e1
    rw [treeSet] at he
    by_cases h : k1 = k
    · rw [if_pos h] at he
      rcases List.mem_cons.mp he with h1 | h1
      · exact Or.inl h1
      · exact Or.inr (List.mem_cons_of_mem _ h1)
    · rw [if_neg h] at he
      rcases List.mem_cons.mp he with h1 | h1
      · exact Or.inr (List.mem_cons.mpr (Or.inl h1))
      · rcases ih h1 with h2 | h2
        · exact Or.inl h2
        · exact Or.inr (List.mem_cons_of_mem _ h2)

lemma treeKeys_treeSet_of_mem (t : PatchTree) (k : String) (v : List ValuesPatchOperation)
    (hk : k ∈ treeKeys t) : treeKeys (treeSet t k v) = treeKeys t := by
  induction t with
  | nil => simp [treeKeys] at hk
  | cons e t ih =>
    obtain ⟨k1, v1⟩ := e
    have hcons : treeKeys ((k1, v1) :: t) = k1 :: treeKeys t := rfl
    rw [hcons] at hk
    rw [treeSet]
    by_cases h : k1 = k
    · rw [if_pos h, treeKeys, treeKeys]
      simp [h]
    · rw [if_neg h, treeKeys, treeKeys]
      simp only [List.map_cons]
      rw [show List.map Prod.fst (treeSet t k v) = treeKeys (treeSet t k v) from rfl,
        show List.map Prod.fst t = treeKeys t from rfl]
      have hk2 : k ∈ treeKeys t := by
        rcases List.mem_cons.mp hk with h1 | h1
        · exact absurd h1.symm h
        · exact h1
      rw [ih hk2]

lemma treeKeys_treeSet_of_not_mem (t : PatchTree) (k : String)
    (v : List ValuesPatchOperation) (hk : k ∉ treeKeys t) :
    treeKeys (treeSet t k v) = treeKeys t ++ [k] := by
  induction t with
  | nil => simp [treeSet, treeKeys]
  | cons e t ih =>
    obtain ⟨k1, v1⟩ := e
    have hcons : treeKeys ((k1, v1) :: t) = k1 :: treeKeys t := rfl
    rw [hcons] at hk
    have hk1 : k1 ≠ k := fun hcontra => hk (hcontra ▸ List.mem_cons_self _ _)
    have hk2 : k ∉ treeKeys t := fun hcontra => hk (List.mem_cons_of_mem _ hcontra)
    rw [treeSet, if_neg hk1, treeKeys, List.map_cons]
    rw [show List.map Prod.fst (treeSet t k v) = treeKeys (treeSet t k v) from rfl, ih hk2]
    simp [treeKeys]

lemma nodup_treeKeys_treeSet (t : PatchTree) (k : String) (v : List ValuesPatchOperation)
    (h : (treeKeys t).Nodup) : (treeKeys (treeSet t k v)).Nodup := by
  by_cases hk : k ∈ treeKeys t
  · rw [treeKeys_treeSet_of_mem t k v hk]; exact h
  · rw [treeKeys_treeSet_of_not_mem t k v hk]
    simp [List.nodup_append, h, hk]

lemma mem_treeKeys_treeSet (t : PatchTree) (k : String) (v : List ValuesPatchOperation)
    (k2 : String) (h : k2 ∈ treeKeys (treeSet t k v)) : k2 ∈ treeKeys t ∨ k2 = k := by
  rw [treeKeys] at h
  rcases List.mem_map.mp h with ⟨e, he, hfst⟩
  rcases mem_treeSet t k v e he with h1 | h1
  · right; rw [← hfst, h1]
  · left; rw [treeKeys]; exact List.mem_map.mpr ⟨e, h1, hfst⟩

lemma treeOK_treeSet (t : PatchTree) (k : String) (v : List ValuesPatchOperation)
    (ht : treeOK t) (hv : entryOK k v) : treeOK (treeSet t k v) := by
  refine ⟨nodup_treeKeys_treeSet t k v ht.1, ?_⟩
  intro e he
  rcases mem_treeSet t k v e he with h1 | h1
  · rw [h1]; exact hv
  · exact ht.2 e h1

lemma treeKeys_treeDeleteSubpaths_sublist (t : PatchTree) (p : String) :
    (treeKeys (treeDeleteSubpaths t p)).Sublist (treeKeys t) :=
  List.Sublist.map Prod.fst (List.filter_sublist t)

lemma treeOK_treeDeleteSubpaths (t : PatchTree) (p : String) (h : treeOK t) :
    treeOK (treeDeleteSubpaths t p) := by
  refine ⟨(treeKeys_treeDeleteSubpaths_sublist t p).nodup h.1, ?_⟩
  intro e he
  exact h.2 e (List.mem_of_mem_filter he)

lemma mem_treeKeys_treeDeleteSubpaths (t : PatchTree) (p : String) (k : String)
    (h : k ∈ treeKeys (treeDeleteSubpaths t p)) :
    k ∈ treeKeys t ∧ strictSubpathOf k p = false := by
  rw [treeKeys] at h
  rcases List.mem_map.mp h with ⟨e, he, hfst⟩
  rcases List.mem_filter.mp he with ⟨hmem, hpred⟩
  constructor
  · rw [treeKeys]; exact List.mem_map.mpr ⟨e, hmem, hfst⟩
  · rw [← hfst]
    simpa using hpred

lemma treeGet_mem (t : PatchTree) (p : String) (l : List ValuesPatchOperation)
    (h : treeGet t p = some l) : (p, l) ∈ t := by
  induction t with
  | nil => simp [treeGet] at h
  | cons e t ih =>
    obtain ⟨k1, v1⟩ := e
    rw [treeGet] at h
    by_cases h1 : k1 = p
    · rw [if_pos h1] at h
      subst h1
      simp only [Option.some.injEq] at h
      subst h
      exact List.mem_cons_self _ _
    · rw [if_neg h1] at h
      exact List.mem_cons_of_mem _ (ih h)

lemma treeGet_entryOK (t : PatchTree) (h : treeOK t) (p : String) :
    entryOK p ((treeGet t p).getD []) := by
  cases hg : treeGet t p with
  | none => exact Or.inl rfl
  | some l => exact h.2 (p, l) (treeGet_mem t p l hg)

lemma treeOK_ensure (t : PatchTree) (p : String) (h : treeOK t) :
    treeOK (if (treeGet t p).isNone then treeSet t p [] else t) := by
  by_cases hg : (treeGet t p).isNone
  · rw [if_pos hg]
    exact treeOK_treeSet t p [] h (Or.inl rfl)
  · rw [if_neg hg]
    exact h

lemma mem_treeKeys_ensure (t : PatchTree) (p : String) (k : String)
    (h : k ∈ treeKeys (if (treeGet t p).isNone then treeSet t p [] else t)) :
    k ∈ treeKeys t ∨ k = p := by
  by_cases hg : (treeGet t p).isNone
  · rw [if_pos hg] at h
    exact mem_treeKeys_treeSet t p [] k h
  · rw [if_neg hg] at h
    exact Or.inl h

lemma strictSubpathOf_self (p : String) : strictSubpathOf p p = false := by
  simp [strictSubpathOf]

lemma compactStep_treeOK (t : PatchTree) (op : ValuesPatchOperation) (h : treeOK t) :
    treeOK (compactStep t op) := by
  rw [compactStep]
  by_cases hrem : op.op = "remove"
  · have hremb : (op.op == "remove") = true := beq_iff_eq.mpr hrem
    have haddb : (op.op == "add") = false := by rw [hrem]; rfl
    simp only [hremb, haddb, eq_self_iff_true, Bool.false_eq_true, if_true, if_false]
    set t1 := treeDeleteSubpaths t op.path with ht1
    have h1 : treeOK t1 := treeOK_treeDeleteSubpaths t op.path h
    set t2 := if (treeGet t1 op.path).isNone then treeSet t1 op.path [] else t1 with ht2
    have h2 : treeOK t2 := treeOK_ensure t1 op.path h1
    have hent : entryOK op.path ((treeGet t2 op.path).getD []) := treeGet_entryOK t2 h2 op.path
    rcases hent with hent | ⟨a, hent, ha, hpa⟩ | ⟨a, r, hent, ha, hr, hpa, hpr⟩
    · rw [hent]
      show treeOK (treeSet t2 op.path [guardPatch op.path, op])
      refine treeOK_treeSet t2 op.path _ h2 ?_
      exact Or.inr (Or.inr ⟨guardPatch op.path, op, rfl, rfl, hrem, rfl, rfl⟩)
    · rw [hent]
      have hlast : lastAddOp [a] = some a := by
        simp [lastAddOp, List.filter, beq_iff_eq.mpr ha]
      rw [hlast]
      show treeOK (treeSet t2 op.path [a, op])
      refine treeOK_treeSet t2 op.path _ h2 ?_
      exact Or.inr (Or.inr ⟨a, op, rfl, ha, hrem, hpa, rfl⟩)
    · rw [hent]
      have hlast : lastAddOp [a, r] = some a := by
        have hrb : (r.op == "add") = false := by rw [hr]; rfl
        simp [lastAddOp, List.filter, beq_iff_eq.mpr ha, hrb]
      rw [hlast]
      show treeOK (treeSet t2 op.path [a, op])
      refine treeOK_treeSet t2 op.path _ h2 ?_
      exact Or.inr (Or.inr ⟨a, op, rfl, ha, hrem, hpa, rfl⟩)
  · have hremb : (op.op == "remove") = false := beq_eq_false_iff_ne.mpr hrem
    simp only [hremb, Bool.false_eq_true, if_false]
    by_cases hadd : op.op = "add"
    · have haddb : (op.op == "add") = true := beq_iff_eq.mpr hadd
      simp only [haddb, eq_self_iff_true, if_true]
      refine treeOK_treeSet _ op.path _ (treeOK_ensure t op.path h) ?_
      exact Or.inr (Or.inl ⟨op, rfl, hadd, rfl⟩)
    · have haddb : (op.op == "add") = false := beq_eq_false_iff_ne.mpr hadd
      simp only [haddb, Bool.false_eq_true, if_false]
      exact treeOK_ensure t op.path h

lemma treeOK_nil : treeOK ([] : PatchTree) := by
  constructor
  · simp [treeKeys]
  · intro e he
    simp at he

lemma foldl_compactStep_treeOK (ops : List ValuesPatchOperation) :
    ∀ t : PatchTree, treeOK t → treeOK (ops.foldl compactStep t) := by
  induction ops with
  | nil => intro t h; exact h
  | cons op rest ih =>
    intro t h
    rw [List.foldl_cons]
    exact ih _ (compactStep_treeOK t op h)

lemma block_paths (tr : PatchTree) (h : treeOK tr) (p : String) :
    ∀ o ∈ (treeGet tr p).getD [], o.path = p := by
  intro o ho
  rcases treeGet_entryOK tr h p with hent | ⟨a, hent, ha, hpa⟩ | ⟨a, r, hent, ha, hr, hpa, hpr⟩
  · rw [hent] at ho; simp at ho
  · rw [hent] at ho
    rcases List.mem_singleton.mp ho with h1
    rw [h1, hpa]
  · rw [hent] at ho
    rcases List.mem_cons.mp ho with h1 | h1
    · rw [h1, hpa]
    · rcases List.mem_singleton.mp h1 with h2
      rw [h2, hpr]

lemma flatMap_filter_single (ps : List String) (hnd : ps.Nodup)
    (blk : String → List ValuesPatchOperation) (f : ValuesPatchOperation → Bool)
    (p : String) (hother : ∀ q, q ≠ p → (blk q).filter f = []) :
    (ps.flatMap blk).filter f = if p ∈ ps then (blk p).filter f else [] := by
  induction ps with
  | nil => simp
  | cons q ps ih =>
    rw [List.flatMap_cons, List.filter_append, ih hnd.of_cons]
    by_cases hq : q = p
    · subst hq
      have hq2 : q ∉ ps := (List.nodup_cons.mp hnd).1
      rw [if_neg hq2, if_pos (List.mem_cons_self q ps), List.append_nil]
    · rw [hother q hq, List.nil_append]
      by_cases hp : p ∈ ps
      · rw [if_pos hp, if_pos (List.mem_cons_of_mem q hp)]
      · rw [if_neg hp, if_neg (by simp [hp, Ne.symm hq])]

lemma chain'_flatMap_blocks (ps : List String)
    (blk : String → List ValuesPatchOperation) (hblk : ∀ q, entryOK q (blk q)) :
    List.Chain' (fun a b => b.op = "remove" → a.op = "add" ∧ a.path = b.path)
      (ps.flatMap blk) ∧
    ∀ a ∈ (ps.flatMap blk).head?, a.op = "add" := by
  induction ps with
  | nil => simp
  | cons q ps ih =>
    rw [List.flatMap_cons]
    rcases hblk q with hent | ⟨a, hent, ha, hpa⟩ | ⟨a, r, hent, ha, hr, hpa, hpr⟩
    · rw [hent, List.nil_append]
      exact ih
    · rw [hent, List.singleton_append]
      constructor
      · rw [List.chain'_cons']
        refine ⟨?_, ih.1⟩
        intro y hy hrem
        exact absurd hrem (by simp [ih.2 y hy])
      · intro b hb
        simp only [List.head?_cons, Option.mem_def, Option.some.injEq] at hb
        exact hb ▸ ha
    · rw [hent]
      show List.Chain' _ (a :: r :: ps.flatMap blk) ∧ _
      constructor
      · rw [List.chain'_cons']
        constructor
        · intro y hy hrem
          simp only [List.head?_cons, Option.mem_def, Option.some.injEq] at hy
          exact hy ▸ ⟨ha, by rw [hpa, hpr]⟩
        · rw [List.chain'_cons']
          refine ⟨?_, ih.1⟩
          intro y hy hrem
          exact absurd hrem (by simp [ih.2 y hy])
      · intro b hb
        simp only [List.cons_append, List.head?_cons, Option.mem_def,
          Option.some.injEq] at hb
        exact hb ▸ ha

lemma pairwise_flatMap_le (ps : List String) (hs : List.Pairwise strLe ps)
    (blk : String → List ValuesPatchOperation)
    (hpaths : ∀ q, ∀ o ∈ blk q, o.path = q) :
    List.Pairwise (fun a b => strLe a.path b.path) (ps.flatMap blk) := by
  induction ps with
  | nil => simp
  | cons q ps ih =>
    rw [List.flatMap_cons, List.pairwise_append]
    refine ⟨?_, ih hs.of_cons, ?_⟩
    · refine List.pairwise_of_forall_mem_list ?_
      intro x hx y hy
      rw [hpaths q x hx, hpaths q y hy]
      exact le_refl _
    · intro x hx y hy
      rcases List.mem_flatMap.mp hy with ⟨q2, hq2, hyblk⟩
      rw [hpaths q x hx, hpaths q2 y hyblk]
      exact List.rel_of_pairwise_cons hs hq2

lemma mem_treeKeys_compactStep (t : PatchTree) (op : ValuesPatchOperation) (k : String)
    (hk : k ∈ treeKeys (compactStep t op)) :
    k ∈ treeKeys (if op.op == "remove" then treeDeleteSubpaths t op.path else t) ∨
      k = op.path := by
  rw [compactStep] at hk
  by_cases hrem : op.op = "remove"
  · have hremb : (op.op == "remove") = true := beq_iff_eq.mpr hrem
    have haddb : (op.op == "add") = false := by rw [hrem]; rfl
    simp only [hremb, haddb, eq_self_iff_true, Bool.false_eq_true, if_true, if_false] at hk ⊢
    set t1 := treeDeleteSubpaths t op.path with ht1
    set t2 := if (treeGet t1 op.path).isNone then treeSet t1 op.path [] else t1 with ht2
    cases hla : lastAddOp ((treeGet t2 op.path).getD []) with
    | some a =>
      simp only [hla] at hk
      rcases mem_treeKeys_treeSet t2 op.path [a, op] k hk with h1 | h1
      · rcases mem_treeKeys_ensure t1 op.path k h1 with h2 | h2
        · exact Or.inl h2
        · exact Or.inr h2
      · exact Or.inr h1
    | none =>
      simp only [hla] at hk
      rcases mem_treeKeys_treeSet t2 op.path [guardPatch op.path, op] k hk with h1 | h1
      · rcases mem_treeKeys_ensure t1 op.path k h1 with h2 | h2
        · exact Or.inl h2
        · exact Or.inr h2
      · exact Or.inr h1
  · have hremb : (op.op == "remove") = false := beq_eq_false_iff_ne.mpr hrem
    simp only [hremb, Bool.false_eq_true, if_false] at hk ⊢
    by_cases hadd : op.op = "add"
    · have haddb : (op.op == "add") = true := beq_iff_eq.mpr hadd
      simp only [haddb, eq_self_iff_true, if_true] at hk
      rcases mem_treeKeys_treeSet _ op.path [op] k hk with h1 | h1
      · rcases mem_treeKeys_ensure t op.path k h1 with h2 | h2
        · exact Or.inl h2
        · exact Or.inr h2
      · exact Or.inr h1
    · have haddb : (op.op == "add") = false := beq_eq_false_iff_ne.mpr hadd
      simp only [haddb, Bool.false_eq_true, if_false] at hk
      rcases mem_treeKeys_ensure t op.path k hk with h2 | h2
      · exact Or.inl h2
      · exact Or.inr h2

lemma compactStep_remove_no_ext (t : PatchTree) (op : ValuesPatchOperation)
    (hop : op.op = "remove") :
    ∀ k ∈ treeKeys (compactStep t op), strictSubpathOf k op.path = false := by
  intro k hk
  rcases mem_treeKeys_compactStep t op k hk with h1 | h1
  · rw [if_pos (beq_iff_eq.mpr hop)] at h1
    exact (mem_treeKeys_treeDeleteSubpaths t op.path k h1).2
  · rw [h1]
    exact strictSubpathOf_self op.path

lemma foldl_compactStep_no_ext (ops : List ValuesPatchOperation) (p : String)
    (hops : ∀ o ∈ ops, strictSubpathOf o.path p = false) :
    ∀ t : PatchTree, (∀ k ∈ treeKeys t, strictSubpathOf k p = false) →
      ∀ k ∈ treeKeys (ops.foldl compactStep t), strictSubpathOf k p = false := by
  induction ops with
  | nil => intro t ht k hk; exact ht k hk
  | cons o rest ih =>
    intro t ht k hk
    rw [List.foldl_cons] at hk
    refine ih (fun o2 ho2 => hops o2 (List.mem_cons_of_mem _ ho2)) _ ?_ k hk
    intro k2 hk2
    rcases mem_treeKeys_compactStep t o k2 hk2 with h1 | h1
    · by_cases hrem : (o.op == "remove") = true
      · rw [if_pos hrem] at h1
        exact ht k2 (mem_treeKeys_treeDeleteSubpaths t o.path k2 h1).1
      · rw [if_neg hrem] at h1
        exact ht k2 h1
    · rw [h1]
      exact hops o (List.mem_cons_self _ _)

/-- C5: shape of the `CompactPatches` output.  For every input sequence and
every path: at most one `add` on that path survives; the output starts with an
`add` (when non-empty) and every `remove` in it is immediately preceded by an
`add` on the same path; the operations on any single path are at most an `add`
with an optional trailing `remove`; and the output is grouped by path with the
paths in the lexicographic order of Go `sort.Strings`. -/
theorem compactPatches_shape_sorted (operations : List ValuesPatchOperation) (p : String) :
    ((CompactPatches operations).filter (fun o => o.path == p && o.op == "add")).length ≤ 1 ∧
    (List.Chain' (fun a b => b.op = "remove" → a.op = "add" ∧ a.path = b.path)
        (CompactPatches operations) ∧
      ∀ a ∈ (CompactPatches operations).head?, a.op = "add") ∧
    ((CompactPatches operations).filter (fun o => o.path == p) = [] ∨
      (∃ a, (CompactPatches operations).filter (fun o => o.path == p) = [a] ∧
        a.op = "add" ∧ a.path = p) ∨
      (∃ a r, (CompactPatches operations).filter (fun o => o.path == p) = [a, r] ∧
        a.op = "add" ∧ r.op = "remove" ∧ a.path = p ∧ r.path = p)) ∧
    List.Pairwise (fun a b => strLe a.path b.path) (CompactPatches operations) := by
  have hC : CompactPatches operations =
      (List.insertionSort strLe (treeKeys (operations.foldl compactStep []))).flatMap
        (fun q => (treeGet (operations.foldl compactStep []) q).getD []) := rfl
  set tr := operations.foldl compactStep [] with htr_def
  have htrOK : treeOK tr := foldl_compactStep_treeOK operations [] treeOK_nil
  have hperm : (List.insertionSort strLe (treeKeys tr)).Perm (treeKeys tr) :=
    List.perm_insertionSort strLe (treeKeys tr)
  have hnd : (List.insertionSort strLe (treeKeys tr)).Nodup :=
    hperm.nodup_iff.mpr htrOK.1
  have hsorted : List.Pairwise strLe (List.insertionSort strLe (treeKeys tr)) :=
    List.sorted_insertionSort strLe (treeKeys tr)
  refine ⟨?_, ?_, ?_, ?_⟩
  · have hother : ∀ q, q ≠ p →
        ((treeGet tr q).getD []).filter (fun o => o.path == p && o.op == "add") = [] := by
      intro q hq
      refine List.filter_eq_nil_iff.mpr ?_
      intro o ho
      have hp := block_paths tr htrOK q o ho
      simp [hp, beq_eq_false_iff_ne.mpr hq]
    rw [hC, flatMap_filter_single _ hnd _ _ p hother]
    by_cases hp : p ∈ List.insertionSort strLe (treeKeys tr)
    · rw [if_pos hp]
      rcases treeGet_entryOK tr htrOK p with hent | ⟨a, hent, ha, hpa⟩ |
          ⟨a, r, hent, ha, hr, hpa, hpr⟩
      · rw [hent]; simp
      · rw [hent]
        simp [List.filter, beq_iff_eq.mpr hpa, beq_iff_eq.mpr ha]
      · rw [hent]
        have hrb : (r.op == "add") = false := by rw [hr]; rfl
        simp [List.filter, beq_iff_eq.mpr hpa, beq_iff_eq.mpr ha, beq_iff_eq.mpr hpr, hrb]
    · rw [if_neg hp]; simp
  · rw [hC]
    have hchain := chain'_flatMap_blocks (List.insertionSort strLe (treeKeys tr))
      (fun q => (treeGet tr q).getD []) (fun q => treeGet_entryOK tr htrOK q)
    exact ⟨hchain.1, hchain.2⟩
  · have hother : ∀ q, q ≠ p →
        ((treeGet tr q).getD []).filter (fun o => o.path == p) = [] := by
      intro q hq
      refine List.filter_eq_nil_iff.mpr ?_
      intro o ho
      have hp := block_paths tr htrOK q o ho
      simp [hp, beq_eq_false_iff_ne.mpr hq]
    rw [hC, flatMap_filter_single _ hnd _ _ p hother]
    by_cases hp : p ∈ List.insertionSort strLe (treeKeys tr)
    · rw [if_pos hp]
      rcases treeGet_entryOK tr htrOK p with hent | ⟨a, hent, ha, hpa⟩ |
          ⟨a, r, hent, ha, hr, hpa, hpr⟩
      · rw [hent]
        exact Or.inl rfl
      · rw [hent]
        refine Or.inr (Or.inl ⟨a, ?_, ha, hpa⟩)
        simp [List.filter, beq_iff_eq.mpr hpa]
      · rw [hent]
        refine Or.inr (Or.inr ⟨a, r, ?_, ha, hr, hpa, hpr⟩)
        simp [List.filter, beq_iff_eq.mpr hpa, beq_iff_eq.mpr hpr]
    · rw [if_neg hp]
      exact Or.inl rfl
  · rw [hC]
    exact pairwise_flatMap_le (List.insertionSort strLe (treeKeys tr)) hsorted
      (fun q => (treeGet tr q).getD []) (fun q => block_paths tr htrOK q)

/-- C10: when `CompactPatches` processes a `remove` on a path, every
accumulated operation on a strict subpath of that path is discarded, so if no
later input operation touches a strict subpath of the removed path, the
compacted output contains no operation on such a subpath. -/
theorem compactPatches_remove_discards_subpaths (pre post : List ValuesPatchOperation)
    (op : ValuesPatchOperation) (hop : op.op = "remove")
    (hpost : ∀ o ∈ post, strictSubpathOf o.path op.path = false) :
    ∀ o ∈ CompactPatches (pre ++ op :: post), strictSubpathOf o.path op.path = false := by
  intro o ho
  have hC : CompactPatches (pre ++ op :: post) =
      (List.insertionSort strLe
          (treeKeys ((pre ++ op :: post).foldl compactStep []))).flatMap
        (fun q => (treeGet ((pre ++ op :: post).foldl compactStep []) q).getD []) := rfl
  rw [hC] at ho
  set tr := (pre ++ op :: post).foldl compactStep [] with htr_def
  have htrOK : treeOK tr := foldl_compactStep_treeOK _ [] treeOK_nil
  rcases List.mem_flatMap.mp ho with ⟨q, hq, hoblk⟩
  have hopath : o.path = q := block_paths tr htrOK q o hoblk
  have hqkeys : q ∈ treeKeys tr :=
    ((List.perm_insertionSort strLe (treeKeys tr)).mem_iff).mp hq
  have hsplit : tr = post.foldl compactStep (compactStep (pre.foldl compactStep []) op) := by
    rw [htr_def, List.foldl_append, List.foldl_cons]
  rw [hopath]
  rw [hsplit] at hqkeys
  exact foldl_compactStep_no_ext post op.path hpost _
    (compactStep_remove_no_ext (pre.foldl compactStep []) op hop) q hqkeys

/-- C10 witness: the theorem at the concrete sequence
`add /a/b; remove /a; add /x`, applied to the surviving `add /x` operation. -/
theorem compactPatches_remove_discards_subpaths_witness :
    strictSubpathOf "/x" "/a" = false :=
  compactPatches_remove_discards_subpaths
    [⟨"add", "/a/b", some (GoVal.str "v1")⟩]
    [⟨"add", "/x", some (GoVal.str "v2")⟩]
    ⟨"remove", "/a", none⟩ rfl (by decide)
    ⟨"add", "/x", some (GoVal.str "v2")⟩ (by decide)

end AddonOperator
